import Mathlib

/-
Verification of the folder-structure-cleanup utility (src/organize.py).

The filesystem is modelled shallowly: a path is its list of components, and a
filesystem state is a finite list of entries, each a path tagged as a regular
file or a directory.  Every function of the source file is translated into a
Lean definition over this model; machine-level concerns (bytes, permissions,
timestamps) are out of scope of the claims and are not modelled.
-/

set_option autoImplicit false

namespace Organize

/-- A filesystem path, as its list of name components (pathlib `Path.parts`). -/
abbrev Path := List String

/-- Whether an entry on disk is a regular file or a directory. -/
inductive EntryKind where
  | file
  | dir
deriving DecidableEq

/-- One filesystem entry: a path together with its kind. -/
structure Entry where
  path : Path
  kind : EntryKind
deriving DecidableEq

/-- A filesystem state: the finite list of entries currently on disk, in the
order a recursive walk enumerates them. -/
structure FS where
  entries : List Entry
deriving DecidableEq

/-- `Path.exists()`: some entry (file or directory) sits at this path. -/
def existsPath (fs : FS) (p : Path) : Bool :=
  fs.entries.any (fun e => e.path == p)

/-- Whether an entry is a directory (`Path.is_dir()` for walked entries). -/
def isDirEntry (e : Entry) : Bool :=
  match e.kind with
  | EntryKind.dir => true
  | EntryKind.file => false

/-- `p.is_dir()`: a directory entry sits at this path. -/
def isDirAt (fs : FS) (p : Path) : Bool :=
  fs.entries.any (fun e => e.path == p && isDirEntry e)

/-- Boolean path-prefix test, used for `relative_to` reachability and `rglob`. -/
def isPrefixB : Path → Path → Bool
  | [], _ => true
  | _ :: _, [] => false
  | a :: as, b :: bs => a == b && isPrefixB as bs

/-- `any(out_root.iterdir())`: the directory has at least one direct child. -/
def hasChildEntry (fs : FS) (p : Path) : Bool :=
  fs.entries.any (fun e => isPrefixB p e.path && e.path.length == p.length + 1)

/-- `Path.name`: the final path component. -/
def nameOf (p : Path) : String := p.getLastD ""

/-- `Path.with_name`: replace the final path component. -/
def withName (p : Path) (n : String) : Path := p.dropLast ++ [n]

/-- pathlib's split of a filename into `(stem, suffix)`: the suffix is the part
from the last dot on, provided that dot is neither the first nor the last
character of the name; otherwise the suffix is empty and the stem is the whole
name. -/
def splitExt (s : List Char) : List Char × List Char :=
  let after := s.reverse.takeWhile (fun c => !(c == '.'))
  if after.length ≠ 0 ∧ after.length + 1 < s.length then
    (s.take (s.length - 1 - after.length), '.' :: after.reverse)
  else
    (s, [])

/-- `Path.suffix` of the final component. -/
def pathSuffix (p : Path) : String := String.mk (splitExt (nameOf p).data).2

/-- Python whitespace stripped by `str.strip()` (ASCII subset). -/
def pySpace (c : Char) : Bool :=
  c == ' ' || c == '\t' || c == '\n' || c == '\r' || c == '\x0b' || c == '\x0c'

/-- `str.strip()`: drop whitespace from both ends. -/
def pyStrip (s : List Char) : List Char :=
  ((s.dropWhile pySpace).reverse.dropWhile pySpace).reverse

/-- The character class `[A-Za-z0-9._-]` of the slugifier's keep-regex. -/
def allowedChar (c : Char) : Bool :=
  ('A' ≤ c && c ≤ 'Z') || ('a' ≤ c && c ≤ 'z') || ('0' ≤ c && c ≤ '9') ||
    c == '.' || c == '_' || c == '-'

/-- `re.sub(r"_+", "_", s)`: collapse each run of underscores to one. -/
def collapseU : List Char → List Char
  | [] => []
  | [c] => [c]
  | a :: b :: rest =>
    if a == '_' && b == '_' then collapseU (b :: rest)
    else a :: collapseU (b :: rest)

/-- `slugify` from the source, on the character list of the name:
strip, spaces to underscores, delete disallowed characters, collapse
underscore runs, and fall back to "file" when empty. -/
def slugifyChars (s : List Char) : List Char :=
  let s1 := pyStrip s
  let s2 := s1.map (fun c => if c == ' ' then '_' else c)
  let s3 := s2.filter allowedChar
  let s4 := collapseU s3
  if s4.isEmpty then "file".data else s4

/-- `slugify(name)` from src/organize.py lines 17-21. -/
def slugify (s : String) : String := String.mk (slugifyChars s.data)

/-- The parsed rules document: the ordered `folders` mapping from category name
to extension list, and the optional `unknown_folder` field. -/
structure Rules where
  folders : List (String × List String)
  unknown_folder : Option String
deriving DecidableEq

/-- `str.lower()` (ASCII). -/
def pyLower (s : String) : String := String.mk (s.data.map Char.toLower)

/-- `rules.get("unknown_folder", "Other")`. -/
def fallbackName (rules : Rules) : String := rules.unknown_folder.getD "Other"

/-- The per-category test of line 32: the (already lower-cased) queried
extension is a member of the category's extension list, lower-cased. -/
def extMatches (lowExt : String) (fe : String × List String) : Bool :=
  (fe.2.map pyLower).contains lowExt

/-- `extension_bucket(ext, rules)` from src/organize.py lines 29-34: lower the
extension, return the first category in order whose lowered extension list
contains it, else the fallback. -/
def extension_bucket (ext : String) (rules : Rules) : String :=
  match rules.folders.find? (extMatches (pyLower ext)) with
  | some fe => fe.1
  | none => fallbackName rules

/-- The `organized_top_folders` set of plan_actions (lines 57-59): all rule
category names plus the fallback category.  Only membership is ever used. -/
def organizedTop (rules : Rules) : List String :=
  rules.folders.map (fun fe => fe.1) ++ [fallbackName rules]

/-- The candidate `p.with_name(f"{stem}_{i}{suffix}")` tried by unique_path. -/
def candAt (p : Path) (i : Nat) : Path :=
  withName p
    (String.mk ((splitExt (nameOf p).data).1 ++ '_' :: (Nat.repr i).data ++
      (splitExt (nameOf p).data).2))

/-- The `for i in range(2, 10_000)` search loop of unique_path: try each
counter in turn and return the first candidate free on disk; error when the
counter list is exhausted. -/
def uniqueSearch (fs : FS) (pname : String) (cand : Nat → Path) :
    List Nat → Except String Path
  | [] => Except.error ("Could not find unique name for " ++ pname)
  | i :: rest =>
    if existsPath fs (cand i) then uniqueSearch fs pname cand rest
    else Except.ok (cand i)

/-- `unique_path(p)` from src/organize.py lines 37-45. -/
def unique_path (fs : FS) (p : Path) : Except String Path :=
  if existsPath fs p then uniqueSearch fs (nameOf p) (candAt p) (List.range' 2 9998)
  else Except.ok p

/-- The `MovePlan` dataclass. -/
structure MovePlan where
  src : Path
  dst : Path
deriving DecidableEq

/-- `name.startswith(".")`. -/
def startsWithDot (s : String) : Bool :=
  match s.data with
  | [] => false
  | c :: _ => c == '.'

/-- `item.parent.relative_to(in_root).parts[0]` when it exists: the top-level
component of the parent's path relative to the source root. -/
def relParentTop (in_root : Path) (p : Path) : Option String :=
  match p.dropLast.drop in_root.length with
  | [] => none
  | t :: _ => some t

/-- `in_root.rglob("*")`: every entry strictly below the root, in walk order. -/
def rglob (fs : FS) (root : Path) : List Entry :=
  fs.entries.filter (fun e => isPrefixB root e.path && decide (root.length < e.path.length))

/-- The test of line 70: the parent's path relative to the root has at least
one component and its first component is a recognized category folder. -/
def inOrganizedParent (in_root : Path) (org : List String) (p : Path) : Bool :=
  match relParentTop in_root p with
  | some t => org.contains t
  | none => false

/-- The three `continue` filters of plan_actions' loop (lines 62-71): skip
directories, skip names starting with a dot, and skip entries whose parent's
top-level component relative to the root is a recognized category folder. -/
def skipEntry (in_root : Path) (org : List String) (e : Entry) : Bool :=
  isDirEntry e || startsWithDot (nameOf e.path) ||
    inOrganizedParent in_root org e.path

/-- The desired destination `target_dir / target_name` of lines 73-76, before
collision resolution: output root, then bucket folder, then the (possibly
slugified) file name. -/
def planTarget (out_root : Path) (rules : Rules) (rename : Bool) (e : Entry) :
    Path :=
  let bucket := extension_bucket (pathSuffix e.path) rules
  let target_dir := out_root ++ [bucket]
  let target_name := if rename then slugify (nameOf e.path) else nameOf e.path
  target_dir ++ [target_name]

/-- The body of plan_actions' loop for a single walked entry: apply the three
filters, then resolve a collision-free destination for the desired target. -/
def planEntry (fs : FS) (in_root out_root : Path) (rules : Rules) (rename : Bool)
    (e : Entry) : Except String (Option MovePlan) :=
  if skipEntry in_root (organizedTop rules) e then Except.ok none
  else
    match unique_path fs (planTarget out_root rules rename e) with
    | Except.error m => Except.error m
    | Except.ok d => Except.ok (some { src := e.path, dst := d })

/-- plan_actions' loop over the walked entries, collecting the planned moves in
traversal order and propagating a resolution failure. -/
def planList (fs : FS) (in_root out_root : Path) (rules : Rules) (rename : Bool) :
    List Entry → Except String (List MovePlan)
  | [] => Except.ok []
  | e :: es =>
    match planEntry fs in_root out_root rules rename e with
    | Except.error m => Except.error m
    | Except.ok none => planList fs in_root out_root rules rename es
    | Except.ok (some p) =>
      match planList fs in_root out_root rules rename es with
      | Except.error m => Except.error m
      | Except.ok ps => Except.ok (p :: ps)

/-- `plan_actions(in_root, out_root, rules, rename)` from src/organize.py
lines 48-80. -/
def plan_actions (fs : FS) (in_root out_root : Path) (rules : Rules)
    (rename : Bool) : Except String (List MovePlan) :=
  planList fs in_root out_root rules rename (rglob fs in_root)

/-- `p.mkdir(parents=True, exist_ok=True)`: create every missing ancestor of
the path (and the path itself) as a directory, shortest first. -/
def mkdirP (fs : FS) (p : Path) : FS :=
  FS.mk (p.inits.foldl
    (fun es q =>
      if q.isEmpty || es.any (fun e => e.path == q) then es
      else es ++ [Entry.mk q EntryKind.dir])
    fs.entries)

/-- Remove every entry sitting at a path. -/
def removePath (es : List Entry) (p : Path) : List Entry :=
  es.filter (fun e => !(e.path == p))

/-- `shutil.move(src, dst)` for a regular file: the source entry disappears,
and a file entry appears at the destination (replacing an existing one). -/
def moveFile (fs : FS) (src dst : Path) : FS :=
  FS.mk (removePath (removePath fs.entries src) dst ++ [Entry.mk dst EntryKind.file])

/-- `shutil.copy2(src, dst)` for a regular file: the source is retained and a
file entry appears at the destination. -/
def copyFile (fs : FS) (_src dst : Path) : FS :=
  FS.mk (removePath fs.entries dst ++ [Entry.mk dst EntryKind.file])

/-- One iteration of `apply`'s loop: create the destination's parent
directories, then move (in place) or copy (separate output). -/
def applyOne (fs : FS) (in_place : Bool) (p : MovePlan) : FS :=
  let fs1 := mkdirP fs p.dst.dropLast
  if in_place then moveFile fs1 p.src p.dst else copyFile fs1 p.src p.dst

/-- `apply(plans, in_place, dry_run)` from src/organize.py lines 101-110. -/
def applyPlans (fs : FS) (plans : List MovePlan) (in_place dry_run : Bool) : FS :=
  if dry_run then fs
  else plans.foldl (fun acc p => applyOne acc in_place p) fs

/-- `ensure_clean_output_folder` from src/organize.py lines 89-98: in in-place
mode do nothing; otherwise create the output root and report (as the Boolean)
whether it is non-empty, which in the source raises SystemExit. -/
def ensure_clean_output_folder (fs : FS) (out_root : Path) (in_place : Bool) :
    FS × Bool :=
  if in_place then (fs, false)
  else
    let fs1 := mkdirP fs out_root
    (fs1, hasChildEntry fs1 out_root)

/-- Replace or create a regular file at a path (`Path.write_text`). -/
def addFile (fs : FS) (p : Path) : FS :=
  FS.mk (removePath fs.entries p ++ [Entry.mk p EntryKind.file])

/-- `write_log`: create the log directory and write the log file. -/
def write_log (fs : FS) (logPath : Path) : FS :=
  addFile (mkdirP fs logPath.dropLast) logPath

/-- The command-line inputs consumed by `main` (already resolved). -/
structure Args where
  root : Path
  rulesPath : Path
  dryRun : Bool
  rename : Bool
  output : Option Path
deriving DecidableEq

/-- `main()` from src/organize.py lines 113-160, after argument parsing and
rules loading: the precondition checks, the output-folder check, the log
directory creation, planning, log writing, and execution.  The result is the
final filesystem state together with either the computed plan or the message
of the `SystemExit`/`RuntimeError` that terminated the process; on an error
the returned state is the state at the moment of termination. -/
def mainRun (fs : FS) (a : Args) (rules : Rules) (logPath : Path) :
    FS × Except String (List MovePlan) :=
  if !(existsPath fs a.root && isDirAt fs a.root) then
    (fs, Except.error "Root folder not found or not a directory")
  else if !(existsPath fs a.rulesPath) then
    (fs, Except.error "Rules file not found")
  else
    let out_root := a.output.getD a.root
    let in_place := decide (out_root = a.root)
    let ec := ensure_clean_output_folder fs out_root in_place
    if ec.2 then (ec.1, Except.error "Output folder is not empty")
    else
      let fs2 := mkdirP ec.1 logPath.dropLast
      match plan_actions fs2 a.root out_root rules a.rename with
      | Except.error m => (fs2, Except.error m)
      | Except.ok plans =>
        let fs3 := write_log fs2 logPath
        (applyPlans fs3 plans in_place a.dryRun, Except.ok plans)

/-- Well-formedness of a filesystem state: every proper, non-empty ancestor
prefix of an entry's path is itself present as a directory entry. -/
def WFb (fs : FS) : Bool :=
  fs.entries.all (fun e =>
    e.path.inits.all (fun q =>
      q.isEmpty || q == e.path ||
        fs.entries.any (fun d => d.path == q && isDirEntry d)))

/-- A primitive filesystem access, for tracing which accesses the planning
phase performs: an existence query (read) or one of the mutating operations
the executor uses. -/
inductive FSEff where
  | read (p : Path)
  | mkdirEff (p : Path)
  | moveEff (src dst : Path)
  | copyEff (src dst : Path)
deriving DecidableEq

/-- Whether an access is a pure read. -/
def FSEff.isRead : FSEff → Bool
  | FSEff.read _ => true
  | _ => false

/-- The state change effected by one primitive access. -/
def effApply (fs : FS) : FSEff → FS
  | FSEff.read _ => fs
  | FSEff.mkdirEff p => mkdirP fs p
  | FSEff.moveEff s d => moveFile fs s d
  | FSEff.copyEff s d => copyFile fs s d

/-- Replay a list of accesses against a state. -/
def applyTrace (fs : FS) (tr : List FSEff) : FS := tr.foldl effApply fs

/-- `uniqueSearch` instrumented with the trace of filesystem accesses it
performs: one existence query per tried candidate. -/
def uniqueSearchTr (fs : FS) (pname : String) (cand : Nat → Path) :
    List Nat → Except String Path × List FSEff
  | [] => (Except.error ("Could not find unique name for " ++ pname), [])
  | i :: rest =>
    if existsPath fs (cand i) then
      let r := uniqueSearchTr fs pname cand rest
      (r.1, FSEff.read (cand i) :: r.2)
    else (Except.ok (cand i), [FSEff.read (cand i)])

/-- `unique_path` instrumented with its trace of filesystem accesses. -/
def unique_pathTr (fs : FS) (p : Path) : Except String Path × List FSEff :=
  if existsPath fs p then
    let r := uniqueSearchTr fs (nameOf p) (candAt p) (List.range' 2 9998)
    (r.1, FSEff.read p :: r.2)
  else (Except.ok p, [FSEff.read p])

/-- `planEntry` instrumented with its trace of filesystem accesses. -/
def planEntryTr (fs : FS) (in_root out_root : Path) (rules : Rules)
    (rename : Bool) (e : Entry) : Except String (Option MovePlan) × List FSEff :=
  if skipEntry in_root (organizedTop rules) e then (Except.ok none, [])
  else
    let r := unique_pathTr fs (planTarget out_root rules rename e)
    (match r.1 with
     | Except.error m => Except.error m
     | Except.ok d => Except.ok (some { src := e.path, dst := d }), r.2)

/-- `planList` instrumented with its trace of filesystem accesses. -/
def planListTr (fs : FS) (in_root out_root : Path) (rules : Rules)
    (rename : Bool) : List Entry → Except String (List MovePlan) × List FSEff
  | [] => (Except.ok [], [])
  | e :: es =>
    let r := planEntryTr fs in_root out_root rules rename e
    match r.1 with
    | Except.error m => (Except.error m, r.2)
    | Except.ok none =>
      let s := planListTr fs in_root out_root rules rename es
      (s.1, r.2 ++ s.2)
    | Except.ok (some p) =>
      let s := planListTr fs in_root out_root rules rename es
      ((match s.1 with
        | Except.error m => Except.error m
        | Except.ok ps => Except.ok (p :: ps)), r.2 ++ s.2)

/-- `plan_actions` instrumented with its trace of filesystem accesses. -/
def plan_actionsTr (fs : FS) (in_root out_root : Path) (rules : Rules)
    (rename : Bool) : Except String (List MovePlan) × List FSEff :=
  planListTr fs in_root out_root rules rename (rglob fs in_root)

/-- The character class the spec allows a slugified name to keep: an ASCII
letter, a digit, a dot, an underscore, or a hyphen. -/
def specAllowed (c : Char) : Bool :=
  c.isAlpha || c.isDigit || c == '.' || c == '_' || c == '-'

/-- Collapsing consecutive underscores into one, stated as the spec reads:
an underscore is dropped when another underscore immediately follows it. -/
def collapseSpec (s : List Char) : List Char :=
  s.foldr
    (fun c acc =>
      if c == '_' && (match acc with | '_' :: _ => true | _ => false) then acc
      else c :: acc) []

/-- The slugifier as the spec describes it, step by step: trim surrounding
whitespace, replace the remaining (interior) spaces with underscores, remove
every disallowed character, collapse consecutive underscores, and fall back to
the literal name "file" when the result would be empty. -/
def slugify_spec (s : String) : String :=
  let trimmed := pyStrip s.data
  let underscored := trimmed.map (fun c => if c == ' ' then '_' else c)
  let kept := underscored.filter specAllowed
  let collapsed := collapseSpec kept
  String.mk (if collapsed = [] then "file".data else collapsed)

/-- The top-level component of an entry's own path relative to the source
root, as the claim's filter wording reads it (for a file directly under the
root this is the file's own name). -/
def relPathTopSpec (in_root : Path) (p : Path) : Option String :=
  match p.drop in_root.length with
  | [] => none
  | t :: _ => some t

/-- No two adjacent underscores occur in the character list. -/
def noDD : List Char → Bool
  | a :: b :: r => !(a == '_' && b == '_') && noDD (b :: r)
  | _ => true

/-- In-place execution of a plan list (the `apply` loop with moves). -/
def applySeq (fs : FS) (ps : List MovePlan) : FS :=
  ps.foldl (fun acc p => applyOne acc true p) fs

/-- No regular file sits at the given path. -/
def noFileAt (fs : FS) (q : Path) : Prop :=
  ∀ e ∈ fs.entries, e.kind = EntryKind.file → e.path ≠ q

/-- The rules of the spec's walkthrough scenario: `.jpg` to `Images`, `.txt`
to `Docs`, fallback `Other`. -/
def rulesScenario : Rules :=
  Rules.mk [("Images", [".jpg"]), ("Docs", [".txt"])] (some "Other")

/-- The source tree of the spec's walkthrough scenario: `a.jpg`, `notes.txt`,
`.hidden`, and a pre-existing `Images/old.jpg`. -/
def fsScenario : FS := FS.mk
  [Entry.mk ["r"] EntryKind.dir,
   Entry.mk ["r", "a.jpg"] EntryKind.file,
   Entry.mk ["r", "notes.txt"] EntryKind.file,
   Entry.mk ["r", ".hidden"] EntryKind.file,
   Entry.mk ["r", "Images"] EntryKind.dir,
   Entry.mk ["r", "Images", "old.jpg"] EntryKind.file]

/-- The plan the walkthrough scenario produces. -/
def scenPlans : List MovePlan :=
  [MovePlan.mk ["r", "a.jpg"] ["r", "Images", "a.jpg"],
   MovePlan.mk ["r", "notes.txt"] ["r", "Docs", "notes.txt"]]

/-- A single-category rule set: `.txt` to `Docs`, fallback defaulted. -/
def rulesTxt : Rules := Rules.mk [("Docs", [".txt"])] none

/-- Two files of the same name in different unorganized subfolders, both
mapping to the same desired target `Docs/x.txt`. -/
def fsDupNames : FS := FS.mk
  [Entry.mk ["r"] EntryKind.dir,
   Entry.mk ["r", "a"] EntryKind.dir,
   Entry.mk ["r", "b"] EntryKind.dir,
   Entry.mk ["r", "a", "x.txt"] EntryKind.file,
   Entry.mk ["r", "b", "x.txt"] EntryKind.file]

/-- A regular file at the top level whose own name, `Other`, equals the
fallback category name. -/
def fsTopCat : FS := FS.mk
  [Entry.mk ["r"] EntryKind.dir,
   Entry.mk ["r", "Other"] EntryKind.file]

/-- A non-hidden regular file lying inside a hidden directory. -/
def fsHiddenDir : FS := FS.mk
  [Entry.mk ["r"] EntryKind.dir,
   Entry.mk ["r", ".git"] EntryKind.dir,
   Entry.mk ["r", ".git", "config"] EntryKind.file]

/-- A directory holding `a.txt` and `a_2.txt`, so resolving `a.txt` must skip
the counter value 2. -/
def fsCounter : FS := FS.mk
  [Entry.mk ["d"] EntryKind.dir,
   Entry.mk ["d", "a.txt"] EntryKind.file,
   Entry.mk ["d", "a_2.txt"] EntryKind.file]

/-- A populated output root, for exercising the non-empty-output refusal. -/
def fsBusyOut : FS := FS.mk
  [Entry.mk ["r"] EntryKind.dir,
   Entry.mk ["r", "a.txt"] EntryKind.file,
   Entry.mk ["rules.json"] EntryKind.file,
   Entry.mk ["out"] EntryKind.dir,
   Entry.mk ["out", "stale.txt"] EntryKind.file]

/-- Arguments selecting `r` as root and the populated `out` as output root. -/
def argsBusyOut : Args :=
  Args.mk ["r"] ["rules.json"] false false (some ["out"])

/-- `isPrefixB` characterized as path extension. -/
theorem isPrefixB_iff : ∀ (a b : Path), isPrefixB a b = true ↔ ∃ t, b = a ++ t
  | [], b => by simp [isPrefixB]
  | x :: xs, [] => by simp [isPrefixB]
  | x :: xs, y :: ys => by
    simp only [isPrefixB, Bool.and_eq_true, beq_iff_eq, isPrefixB_iff xs ys,
      List.cons_append]
    constructor
    · rintro ⟨rfl, t, rfl⟩
      exact ⟨t, rfl⟩
    · rintro ⟨t, ht⟩
      injection ht with h1 h2
      exact ⟨h1.symm, t, h2⟩

/-- `existsPath` characterized by membership. -/
theorem existsPath_iff (fs : FS) (p : Path) :
    existsPath fs p = true ↔ ∃ e ∈ fs.entries, e.path = p := by
  simp [existsPath, List.any_eq_true]

/-- A non-directory entry is a regular file. -/
theorem isDirEntry_false_iff (e : Entry) :
    isDirEntry e = false ↔ e.kind = EntryKind.file := by
  cases h : e.kind <;> simp [isDirEntry, h]

/-- A directory entry's kind. -/
theorem isDirEntry_true_iff (e : Entry) :
    isDirEntry e = true ↔ e.kind = EntryKind.dir := by
  cases h : e.kind <;> simp [isDirEntry, h]

/-- Membership after removing a path. -/
theorem mem_removePath {es : List Entry} {p : Path} {e : Entry} :
    e ∈ removePath es p ↔ e ∈ es ∧ e.path ≠ p := by
  simp [removePath, List.mem_filter]

/-- Membership after a move: an untouched old entry, or the new file. -/
theorem mem_moveFile {fs : FS} {s d : Path} {e : Entry}
    (he : e ∈ (moveFile fs s d).entries) :
    (e ∈ fs.entries ∧ e.path ≠ s ∧ e.path ≠ d) ∨ e = Entry.mk d EntryKind.file := by
  rcases List.mem_append.mp he with h | h
  · rcases mem_removePath.mp h with ⟨h1, h2⟩
    rcases mem_removePath.mp h1 with ⟨h3, h4⟩
    exact Or.inl ⟨h3, h4, h2⟩
  · simp at h
    exact Or.inr h

/-- Entries added by the mkdir fold are directories. -/
theorem foldl_mkdir_mem (l : List Path) (es : List Entry) (e : Entry)
    (he : e ∈ l.foldl
      (fun acc q =>
        if q.isEmpty || acc.any (fun e2 => e2.path == q) then acc
        else acc ++ [Entry.mk q EntryKind.dir]) es) :
    e ∈ es ∨ e.kind = EntryKind.dir := by
  induction l generalizing es with
  | nil => exact Or.inl he
  | cons q l ih =>
    simp only [List.foldl_cons] at he
    rcases ih _ he with h | h
    · by_cases hq : (q.isEmpty || es.any (fun e2 => e2.path == q)) = true
      · rw [if_pos hq] at h
        exact Or.inl h
      · rw [if_neg hq] at h
        rcases List.mem_append.mp h with h2 | h2
        · exact Or.inl h2
        · simp at h2
          subst h2
          exact Or.inr rfl
    · exact Or.inr h

/-- Entries of `mkdirP` come from the old state or are directories. -/
theorem mkdirP_mem {fs : FS} {p : Path} {e : Entry}
    (he : e ∈ (mkdirP fs p).entries) : e ∈ fs.entries ∨ e.kind = EntryKind.dir :=
  foldl_mkdir_mem _ _ _ he

/-- The mkdir fold is the identity when every path already exists. -/
theorem foldl_mkdir_id (l : List Path) (es : List Entry)
    (h : ∀ q ∈ l, q.isEmpty = true ∨ es.any (fun e2 => e2.path == q) = true) :
    l.foldl
      (fun acc q =>
        if q.isEmpty || acc.any (fun e2 => e2.path == q) then acc
        else acc ++ [Entry.mk q EntryKind.dir]) es = es := by
  induction l with
  | nil => rfl
  | cons q l ih =>
    have hq : (q.isEmpty || es.any (fun e2 => e2.path == q)) = true := by
      rcases h q (by simp) with h1 | h1 <;> simp [h1]
    simp only [List.foldl_cons, if_pos hq]
    exact ih (fun q2 hq2 => h q2 (by simp [hq2]))

/-- `mkdirP` changes nothing when the directory chain already exists. -/
theorem mkdirP_eq_self {fs : FS} {p : Path}
    (h : ∀ q ∈ p.inits, q.isEmpty = true ∨ existsPath fs q = true) :
    mkdirP fs p = fs := by
  unfold mkdirP
  rw [foldl_mkdir_id _ _ h]

/-- A filtered entry produces no planned move. -/
theorem planEntry_skip {fs : FS} {in_root out_root : Path} {rules : Rules}
    {rename : Bool} {e : Entry}
    (h : skipEntry in_root (organizedTop rules) e = true) :
    planEntry fs in_root out_root rules rename e = Except.ok none := by
  simp [planEntry, h]

/-- An unfiltered entry's planned move is its resolved unique target. -/
theorem planEntry_not_skip {fs : FS} {in_root out_root : Path} {rules : Rules}
    {rename : Bool} {e : Entry}
    (h : skipEntry in_root (organizedTop rules) e = false) :
    planEntry fs in_root out_root rules rename e =
      match unique_path fs (planTarget out_root rules rename e) with
      | Except.error m => Except.error m
      | Except.ok d => Except.ok (some (MovePlan.mk e.path d)) := by
  simp [planEntry, h]

/-- A successful plan's sources are exactly the unfiltered walked entries, in
order. -/
theorem planList_ok_srcs {fs : FS} {in_root out_root : Path} {rules : Rules}
    {rename : Bool} (es : List Entry) (ps : List MovePlan)
    (h : planList fs in_root out_root rules rename es = Except.ok ps) :
    ps.map (fun p => p.src) =
      (es.filter (fun e => !skipEntry in_root (organizedTop rules) e)).map
        (fun e => e.path) := by
  induction es generalizing ps with
  | nil =>
    simp only [planList] at h
    injection h with h
    subst h
    simp
  | cons e es ih =>
    simp only [planList] at h
    by_cases hs : skipEntry in_root (organizedTop rules) e = true
    · rw [planEntry_skip hs] at h
      rw [ih ps h]
      simp [List.filter_cons, hs]
    · have hs' : skipEntry in_root (organizedTop rules) e = false := by
        revert hs
        cases skipEntry in_root (organizedTop rules) e <;> simp
      rw [planEntry_not_skip hs'] at h
      cases hu : unique_path fs (planTarget out_root rules rename e) with
      | error m =>
        rw [hu] at h
        exact absurd h (by simp)
      | ok d =>
        rw [hu] at h
        dsimp only at h
        cases hp : planList fs in_root out_root rules rename es with
        | error m =>
          rw [hp] at h
          exact absurd h (by simp)
        | ok ps' =>
          rw [hp] at h
          dsimp only at h
          injection h with h
          subst h
          simp [List.filter_cons, hs', ih ps' hp]

/-- Every successful planned move comes from an unfiltered walked entry, with
its destination resolved by `unique_path` on the desired target. -/
theorem planList_ok_mem {fs : FS} {in_root out_root : Path} {rules : Rules}
    {rename : Bool} (es : List Entry) (ps : List MovePlan)
    (h : planList fs in_root out_root rules rename es = Except.ok ps)
    (p : MovePlan) (hp : p ∈ ps) :
    ∃ e ∈ es, skipEntry in_root (organizedTop rules) e = false ∧
      p.src = e.path ∧
      unique_path fs (planTarget out_root rules rename e) = Except.ok p.dst := by
  induction es generalizing ps with
  | nil =>
    simp only [planList] at h
    injection h with h
    subst h
    simp at hp
  | cons e es ih =>
    simp only [planList] at h
    by_cases hs : skipEntry in_root (organizedTop rules) e = true
    · rw [planEntry_skip hs] at h
      obtain ⟨e2, he2, rest⟩ := ih ps h hp
      exact ⟨e2, List.mem_cons_of_mem _ he2, rest⟩
    · have hs' : skipEntry in_root (organizedTop rules) e = false := by
        revert hs
        cases skipEntry in_root (organizedTop rules) e <;> simp
      rw [planEntry_not_skip hs'] at h
      cases hu : unique_path fs (planTarget out_root rules rename e) with
      | error m =>
        rw [hu] at h
        exact absurd h (by simp)
      | ok d =>
        rw [hu] at h
        dsimp only at h
        cases hpl : planList fs in_root out_root rules rename es with
        | error m =>
          rw [hpl] at h
          exact absurd h (by simp)
        | ok ps' =>
          rw [hpl] at h
          dsimp only at h
          injection h with h
          subst h
          rcases List.mem_cons.mp hp with rfl | hp'
          · exact ⟨e, List.mem_cons_self _ _, hs', rfl, hu⟩
          · obtain ⟨e2, he2, rest⟩ := ih ps' hpl hp'
            exact ⟨e2, List.mem_cons_of_mem _ he2, rest⟩

/-- When every walked entry is filtered out, the plan is empty. -/
theorem planList_skip_all {fs : FS} {in_root out_root : Path} {rules : Rules}
    {rename : Bool} (es : List Entry)
    (h : ∀ e ∈ es, skipEntry in_root (organizedTop rules) e = true) :
    planList fs in_root out_root rules rename es = Except.ok [] := by
  induction es with
  | nil => rfl
  | cons e es ih =>
    simp only [planList]
    rw [planEntry_skip (h e (List.mem_cons_self _ _))]
    exact ih (fun e2 he2 => h e2 (List.mem_cons_of_mem _ he2))

/-- A successful search returns one of the tried candidates, free on disk. -/
theorem uniqueSearch_ok_shape {fs : FS} {pname : String} {cand : Nat → Path} :
    ∀ (l : List Nat) (c : Path), uniqueSearch fs pname cand l = Except.ok c →
      ∃ i ∈ l, c = cand i ∧ existsPath fs (cand i) = false
  | [], c => by simp [uniqueSearch]
  | i :: rest, c => by
    simp only [uniqueSearch]
    by_cases he : existsPath fs (cand i) = true
    · rw [if_pos he]
      intro h
      obtain ⟨j, hj, rest2⟩ := uniqueSearch_ok_shape rest c h
      exact ⟨j, List.mem_cons_of_mem _ hj, rest2⟩
    · rw [if_neg he]
      intro h
      injection h with h
      subst h
      exact ⟨i, List.mem_cons_self _ _, rfl, by revert he; cases existsPath fs (cand i) <;> simp⟩

/-- A resolved destination keeps the desired target's parent directory. -/
theorem unique_path_ok_parent {fs : FS} {x : Path} {y : String} {c : Path}
    (h : unique_path fs (x ++ [y]) = Except.ok c) : ∃ n, c = x ++ [n] := by
  unfold unique_path at h
  by_cases he : existsPath fs (x ++ [y]) = true
  · rw [if_pos he] at h
    obtain ⟨i, _, rfl, _⟩ := uniqueSearch_ok_shape _ _ h
    refine ⟨String.mk ((splitExt (nameOf (x ++ [y])).data).1 ++
      '_' :: (Nat.repr i).data ++ (splitExt (nameOf (x ++ [y])).data).2), ?_⟩
    unfold candAt withName
    rw [List.dropLast_concat]
  · rw [if_neg he] at h
    injection h with h
    exact ⟨y, h.symm⟩

/-- The bucket resolved for any extension is a recognized category folder. -/
theorem extension_bucket_mem (ext : String) (rules : Rules) :
    extension_bucket ext rules ∈ organizedTop rules := by
  have hdef : extension_bucket ext rules =
      match rules.folders.find? (extMatches (pyLower ext)) with
      | some fe => fe.1
      | none => fallbackName rules := rfl
  rw [hdef]
  cases hf : rules.folders.find? (extMatches (pyLower ext)) with
  | none => simp [organizedTop]
  | some fe =>
    have hmem := List.mem_of_find?_eq_some hf
    dsimp only
    exact List.mem_append.mpr (Or.inl (List.mem_map.mpr ⟨fe, hmem, rfl⟩))

/-- Every successful planned move's destination sits directly under a
recognized category folder of the output root. -/
theorem planList_ok_dst_shape {fs : FS} {in_root out_root : Path} {rules : Rules}
    {rename : Bool} (es : List Entry) (ps : List MovePlan)
    (h : planList fs in_root out_root rules rename es = Except.ok ps)
    (p : MovePlan) (hp : p ∈ ps) :
    ∃ b n, b ∈ organizedTop rules ∧ p.dst = out_root ++ [b, n] := by
  obtain ⟨e, _, _, _, hu⟩ := planList_ok_mem es ps h p hp
  have hT : planTarget out_root rules rename e =
      (out_root ++ [extension_bucket (pathSuffix e.path) rules]) ++
        [if rename then slugify (nameOf e.path) else nameOf e.path] := rfl
  rw [hT] at hu
  obtain ⟨n, hn⟩ := unique_path_ok_parent hu
  refine ⟨extension_bucket (pathSuffix e.path) rules, n,
    extension_bucket_mem _ _, ?_⟩
  rw [hn]
  simp

/-- Membership in the recursive walk. -/
theorem mem_rglob {fs : FS} {root : Path} {e : Entry} :
    e ∈ rglob fs root ↔
      e ∈ fs.entries ∧ isPrefixB root e.path = true ∧
        root.length < e.path.length := by
  simp [rglob, List.mem_filter, Bool.and_eq_true, and_assoc]

/-- An unfiltered entry fails all three filters. -/
theorem skipEntry_false {in_root : Path} {org : List String} {e : Entry}
    (h : skipEntry in_root org e = false) :
    isDirEntry e = false ∧ startsWithDot (nameOf e.path) = false ∧
      inOrganizedParent in_root org e.path = false := by
  revert h
  unfold skipEntry
  cases isDirEntry e <;> cases startsWithDot (nameOf e.path) <;>
    cases inOrganizedParent in_root org e.path <;> simp

/-- `List.contains` is membership (strings compare lawfully). -/
theorem contains_iff_mem {l : List String} {a : String} :
    l.contains a = true ↔ a ∈ l := by
  simp [List.contains]

/-- The parent's relative top-level component of a path two levels below the
root. -/
theorem relParentTop_append (in_root : Path) (b n : String) :
    relParentTop in_root (in_root ++ [b, n]) = some b := by
  unfold relParentTop
  rw [show in_root ++ [b, n] = (in_root ++ [b]) ++ [n] by simp,
    List.dropLast_concat, List.drop_left]

/-- A destination directly under a recognized category folder never equals a
source that was not filtered out by the organized-folder filter. -/
theorem dst_ne_src {in_root : Path} {org : List String} (b n : String)
    (hb : b ∈ org) {sp : Path} (hpre : ∃ t, sp = in_root ++ t ∧ t ≠ [])
    (hno : inOrganizedParent in_root org sp = false) :
    in_root ++ [b, n] ≠ sp := by
  obtain ⟨t, rfl, _⟩ := hpre
  intro heq
  have ht2 : [b, n] = t := List.append_cancel_left heq
  subst ht2
  have hred : inOrganizedParent in_root org (in_root ++ [b, n]) = org.contains b := by
    unfold inOrganizedParent
    rw [relParentTop_append]
  rw [hred, contains_iff_mem.mpr hb] at hno
  exact absurd hno (by simp)

/-- In-place, non-dry execution is the fold of single moves. -/
theorem applyPlans_eq_applySeq (fs : FS) (ps : List MovePlan) :
    applyPlans fs ps true false = applySeq fs ps := rfl

/-- After in-place execution, every entry is an old entry, a directory, or a
file directly under a recognized category folder of the root. -/
theorem mem_applySeq {in_root : Path} {org : List String} (ps : List MovePlan)
    (fs : FS) (h : ∀ p ∈ ps, ∃ b n, b ∈ org ∧ p.dst = in_root ++ [b, n])
    (e : Entry) (he : e ∈ (applySeq fs ps).entries) :
    e ∈ fs.entries ∨ e.kind = EntryKind.dir ∨
      ∃ b n, b ∈ org ∧ e.path = in_root ++ [b, n] ∧ e.kind = EntryKind.file := by
  induction ps generalizing fs with
  | nil => exact Or.inl he
  | cons p ps ih =>
    have he' : e ∈ (applySeq (applyOne fs true p) ps).entries := he
    rcases ih (applyOne fs true p) (fun q hq => h q (List.mem_cons_of_mem _ hq)) he' with
      h1 | h1 | h1
    · have h1' : e ∈ (moveFile (mkdirP fs p.dst.dropLast) p.src p.dst).entries := h1
      rcases mem_moveFile h1' with ⟨hm, _, _⟩ | rfl
      · rcases mkdirP_mem hm with h2 | h2
        · exact Or.inl h2
        · exact Or.inr (Or.inl h2)
      · obtain ⟨b, n, hb, hd⟩ := h p (List.mem_cons_self _ _)
        exact Or.inr (Or.inr ⟨b, n, hb, hd, rfl⟩)
    · exact Or.inr (Or.inl h1)
    · exact Or.inr (Or.inr h1)

/-- `mkdirP` creates no file at any path. -/
theorem noFileAt_mkdirP {fs : FS} {q p2 : Path} (h : noFileAt fs q) :
    noFileAt (mkdirP fs p2) q := by
  intro e he hk
  rcases mkdirP_mem he with h1 | h1
  · exact h e h1 hk
  · rw [h1] at hk
    exact absurd hk (by simp)

/-- A move to a different destination leaves a file-free path file-free. -/
theorem noFileAt_moveFile {fs : FS} {s d q : Path} (hd : d ≠ q)
    (h : noFileAt fs q) : noFileAt (moveFile fs s d) q := by
  intro e he hk
  rcases mem_moveFile he with ⟨h1, _, _⟩ | rfl
  · exact h e h1 hk
  · exact hd

/-- A planned step to a different destination leaves a file-free path
file-free. -/
theorem noFileAt_applyOne {fs : FS} {p : MovePlan} {q : Path} (hd : p.dst ≠ q)
    (h : noFileAt fs q) : noFileAt (applyOne fs true p) q :=
  noFileAt_moveFile hd (noFileAt_mkdirP h)

/-- Executing steps that never target a path leaves it file-free. -/
theorem noFileAt_applySeq (ps : List MovePlan) (fs : FS) (q : Path)
    (hd : ∀ p ∈ ps, p.dst ≠ q) (h : noFileAt fs q) :
    noFileAt (applySeq fs ps) q := by
  induction ps generalizing fs with
  | nil => exact h
  | cons p ps ih =>
    exact ih (applyOne fs true p)
      (fun p2 hp2 => hd p2 (List.mem_cons_of_mem _ hp2))
      (noFileAt_applyOne (hd p (List.mem_cons_self _ _)) h)

/-- Moving a file away removes every file at its source path. -/
theorem applyOne_clears_src {fs : FS} {p : MovePlan} (hd : p.dst ≠ p.src) :
    noFileAt (applyOne fs true p) p.src := by
  intro e he _
  have he' : e ∈ (moveFile (mkdirP fs p.dst.dropLast) p.src p.dst).entries := he
  rcases mem_moveFile he' with ⟨_, h2, _⟩ | rfl
  · exact h2
  · exact hd

/-- After executing a whole plan whose destinations never coincide with
sources, no file remains at any planned source path. -/
theorem src_gone (ps : List MovePlan)
    (hds : ∀ p ∈ ps, ∀ p2 ∈ ps, p.dst ≠ p2.src) (p0 : MovePlan)
    (hp0 : p0 ∈ ps) (fs : FS) : noFileAt (applySeq fs ps) p0.src := by
  obtain ⟨l1, l2, rfl⟩ := List.append_of_mem hp0
  have hsplit : applySeq fs (l1 ++ p0 :: l2) =
      applySeq (applyOne (applySeq fs l1) true p0) l2 := by
    simp [applySeq, List.foldl_append]
  rw [hsplit]
  apply noFileAt_applySeq
  · intro p hp
    exact hds p (by simp [hp]) p0 (by simp)
  · exact applyOne_clears_src
      (hds p0 (by simp) p0 (by simp))

/-- C5: running the tool twice in in-place mode over the same source with the
same rules produces an empty second plan — applying the first plan leaves
every previously planned file directly under a recognized top-level category
folder of the source root, and the second invocation of plan_actions skips
every remaining entry and returns the empty list. -/
theorem C5_second_run_empty (fs : FS) (in_root : Path) (rules : Rules)
    (rename : Bool) (ps : List MovePlan)
    (h : plan_actions fs in_root in_root rules rename = Except.ok ps) :
    plan_actions (applyPlans fs ps true false) in_root in_root rules rename =
      Except.ok [] := by
  have h' : planList fs in_root in_root rules rename (rglob fs in_root) =
      Except.ok ps := h
  have hdst : ∀ p ∈ ps, ∃ b n, b ∈ organizedTop rules ∧
      p.dst = in_root ++ [b, n] :=
    fun p hp => planList_ok_dst_shape _ _ h' p hp
  have hsrc : ∀ p ∈ ps, (∃ t, p.src = in_root ++ t ∧ t ≠ []) ∧
      inOrganizedParent in_root (organizedTop rules) p.src = false := by
    intro p hp
    obtain ⟨e, he, hsk, hspath, _⟩ := planList_ok_mem _ _ h' p hp
    obtain ⟨_, hpre, hlen⟩ := mem_rglob.mp he
    obtain ⟨t, ht⟩ := (isPrefixB_iff _ _).mp hpre
    obtain ⟨_, _, horg⟩ := skipEntry_false hsk
    refine ⟨⟨t, by rw [hspath, ht], ?_⟩, by rw [hspath]; exact horg⟩
    intro hnil
    rw [ht, hnil] at hlen
    simp at hlen
  have hds : ∀ p ∈ ps, ∀ p2 ∈ ps, p.dst ≠ p2.src := by
    intro p hp p2 hp2
    obtain ⟨b, n, hb, hd⟩ := hdst p hp
    obtain ⟨hpre2, horg2⟩ := hsrc p2 hp2
    rw [hd]
    exact dst_ne_src b n hb hpre2 horg2
  rw [applyPlans_eq_applySeq]
  show planList (applySeq fs ps) in_root in_root rules rename
    (rglob (applySeq fs ps) in_root) = Except.ok []
  apply planList_skip_all
  intro e he
  obtain ⟨hmem', hpre, hlen⟩ := mem_rglob.mp he
  rcases mem_applySeq ps fs hdst e hmem' with h1 | h1 | h1
  · by_cases hsk : skipEntry in_root (organizedTop rules) e = true
    · exact hsk
    · exfalso
      have hsk' : skipEntry in_root (organizedTop rules) e = false := by
        revert hsk
        cases skipEntry in_root (organizedTop rules) e <;> simp
      have hein : e ∈ rglob fs in_root := mem_rglob.mpr ⟨h1, hpre, hlen⟩
      have hmap := planList_ok_srcs _ _ h'
      have hsrcmem : e.path ∈ ps.map (fun p => p.src) := by
        rw [hmap]
        exact List.mem_map.mpr
          ⟨e, List.mem_filter.mpr ⟨hein, by simp [hsk']⟩, rfl⟩
      obtain ⟨p0, hp0, hp0src⟩ := List.mem_map.mp hsrcmem
      obtain ⟨hdirF, _, _⟩ := skipEntry_false hsk'
      have hkind := (isDirEntry_false_iff e).mp hdirF
      exact src_gone ps hds p0 hp0 fs e hmem' hkind hp0src.symm
  · have hdir : isDirEntry e = true := (isDirEntry_true_iff e).mpr h1
    simp [skipEntry, hdir]
  · obtain ⟨b, n, hb, hpath, _⟩ := h1
    have horg : inOrganizedParent in_root (organizedTop rules) e.path = true := by
      have hred : inOrganizedParent in_root (organizedTop rules)
          (in_root ++ [b, n]) = (organizedTop rules).contains b := by
        unfold inOrganizedParent
        rw [relParentTop_append]
      rw [hpath, hred]
      exact contains_iff_mem.mpr hb
    simp [skipEntry, horg]

/-- C5 witness: the walkthrough scenario, organized in place, yields an empty
second plan. -/
theorem C5_witness :
    plan_actions fsScenario ["r"] ["r"] rulesScenario false =
      Except.ok scenPlans ∧
    plan_actions (applyPlans fsScenario scenPlans true false) ["r"] ["r"]
      rulesScenario false = Except.ok [] :=
  ⟨rfl, C5_second_run_empty fsScenario ["r"] rulesScenario false scenPlans rfl⟩

/-- C1 (violated by the code): on two sources that map to the same desired
target, plan_actions assigns both moves the same destination, even though that
destination does not exist on disk — the resolver consults only the disk, not
destinations already claimed in the same build pass. -/
theorem C1_duplicate_destinations :
    plan_actions fsDupNames ["r"] ["r"] rulesTxt false = Except.ok
      [MovePlan.mk ["r", "a", "x.txt"] ["r", "Docs", "x.txt"],
       MovePlan.mk ["r", "b", "x.txt"] ["r", "Docs", "x.txt"]] ∧
    ¬ ([MovePlan.mk ["r", "a", "x.txt"] ["r", "Docs", "x.txt"],
        MovePlan.mk ["r", "b", "x.txt"] ["r", "Docs", "x.txt"]].map
        (fun p => p.dst)).Nodup ∧
    existsPath fsDupNames ["r", "Docs", "x.txt"] = false :=
  ⟨rfl, by decide, rfl⟩

/-- C4 (amended): a successful plan's sources are exactly the walked entries
surviving the three filters — not a directory, name not starting with a dot,
and the parent's top-level component relative to the root not a recognized
category folder; and in the walkthrough scenario exactly `a.jpg` and
`notes.txt` are planned. -/
theorem C4_plan_filters :
    (∀ (fs : FS) (in_root out_root : Path) (rules : Rules) (rename : Bool)
      (ps : List MovePlan),
      plan_actions fs in_root out_root rules rename = Except.ok ps →
      ps.map (fun p => p.src) =
        ((rglob fs in_root).filter
          (fun e => !skipEntry in_root (organizedTop rules) e)).map
          (fun e => e.path)) ∧
    plan_actions fsScenario ["r"] ["r"] rulesScenario false =
      Except.ok scenPlans ∧
    scenPlans.map (fun p => p.src) = [["r", "a.jpg"], ["r", "notes.txt"]] :=
  ⟨fun _ _ _ _ _ _ h => planList_ok_srcs _ _ h, rfl, rfl⟩

/-- C4 counterexample to the claim as stated: a top-level regular file named
`Other` — whose path relative to the source root has top-level component
`Other`, a member of the Organized-Folder Set — is nevertheless included in
the plan, because the code tests the parent's relative path, not the entry's
own. -/
theorem C4_counterexample :
    plan_actions fsTopCat ["r"] ["r"] rulesTxt false =
      Except.ok [MovePlan.mk ["r", "Other"] ["r", "Other", "Other"]] ∧
    relPathTopSpec ["r"] ["r", "Other"] = some "Other" ∧
    "Other" ∈ organizedTop rulesTxt :=
  ⟨rfl, rfl, by decide⟩

/-- C4 witness: the filter characterization applied to the walkthrough
scenario. -/
theorem C4_witness :
    scenPlans.map (fun p => p.src) =
      ((rglob fsScenario ["r"]).filter
        (fun e => !skipEntry ["r"] (organizedTop rulesScenario) e)).map
        (fun e => e.path) :=
  C4_plan_filters.1 fsScenario ["r"] ["r"] rulesScenario false scenPlans rfl

/-- C10: only the entry's own filename is tested against the hidden-file
convention — every regular file below the root whose own name does not start
with a dot and which the organized-folder filter does not exclude appears
among the plan's sources, regardless of hidden ancestor directories. -/
theorem C10_hidden_filter_own_name (fs : FS) (in_root out_root : Path)
    (rules : Rules) (rename : Bool) (ps : List MovePlan) (e : Entry)
    (hok : plan_actions fs in_root out_root rules rename = Except.ok ps)
    (hmem : e ∈ fs.entries) (hfile : e.kind = EntryKind.file)
    (hpre : isPrefixB in_root e.path = true)
    (hlen : in_root.length < e.path.length)
    (hname : startsWithDot (nameOf e.path) = false)
    (horg : inOrganizedParent in_root (organizedTop rules) e.path = false) :
    e.path ∈ ps.map (fun p => p.src) := by
  have h' : planList fs in_root out_root rules rename (rglob fs in_root) =
      Except.ok ps := hok
  rw [planList_ok_srcs _ _ h']
  have hsk : skipEntry in_root (organizedTop rules) e = false := by
    unfold skipEntry
    rw [(isDirEntry_false_iff e).mpr hfile, hname, horg]
    rfl
  exact List.mem_map.mpr
    ⟨e, List.mem_filter.mpr ⟨mem_rglob.mpr ⟨hmem, hpre, hlen⟩, by simp [hsk]⟩,
      rfl⟩

/-- C10 witness: `.git/config` — a non-hidden file inside a hidden directory —
is planned. -/
theorem C10_witness :
    plan_actions fsHiddenDir ["r"] ["r"] rulesTxt false =
      Except.ok [MovePlan.mk ["r", ".git", "config"] ["r", "Other", "config"]] ∧
    ["r", ".git", "config"] ∈
      ([MovePlan.mk ["r", ".git", "config"] ["r", "Other", "config"]].map
        (fun p => p.src)) :=
  ⟨rfl,
    C10_hidden_filter_own_name fsHiddenDir ["r"] ["r"] rulesTxt false _
      (Entry.mk ["r", ".git", "config"] EntryKind.file) rfl (by decide) rfl
      (by decide) (by decide) rfl rfl⟩

/-- When every tried candidate is taken, the search exhausts with the
resolution error. -/
theorem uniqueSearch_all_taken {fs : FS} {pname : String} {cand : Nat → Path} :
    ∀ (l : List Nat), (∀ j ∈ l, existsPath fs (cand j) = true) →
      uniqueSearch fs pname cand l =
        Except.error ("Could not find unique name for " ++ pname)
  | [], _ => rfl
  | i :: rest, h => by
    simp only [uniqueSearch, if_pos (h i (List.mem_cons_self _ _))]
    exact uniqueSearch_all_taken rest (fun j hj => h j (List.mem_cons_of_mem _ hj))

/-- A failed search means every tried candidate was taken. -/
theorem uniqueSearch_error_all {fs : FS} {pname : String} {cand : Nat → Path} :
    ∀ (l : List Nat) (m : String), uniqueSearch fs pname cand l = Except.error m →
      ∀ j ∈ l, existsPath fs (cand j) = true
  | [], _, _ => by simp
  | i :: rest, m, h => by
    by_cases he : existsPath fs (cand i) = true
    · intro j hj
      rcases List.mem_cons.mp hj with rfl | hj'
      · exact he
      · exact uniqueSearch_error_all rest m
          (by simpa only [uniqueSearch, if_pos he] using h) j hj'
    · rw [uniqueSearch, if_neg he] at h
      exact absurd h (by simp)

/-- The search returns the first free candidate. -/
theorem uniqueSearch_first_free {fs : FS} {pname : String} {cand : Nat → Path} :
    ∀ (l1 : List Nat) (i : Nat) (l2 : List Nat),
      (∀ j ∈ l1, existsPath fs (cand j) = true) →
      existsPath fs (cand i) = false →
      uniqueSearch fs pname cand (l1 ++ i :: l2) = Except.ok (cand i)
  | [], i, l2, _, hfree => by
    simp only [List.nil_append, uniqueSearch]
    rw [if_neg (by simp [hfree])]
  | k :: l1, i, l2, htaken, hfree => by
    simp only [List.cons_append, uniqueSearch]
    rw [if_pos (htaken k (List.mem_cons_self _ _))]
    exact uniqueSearch_first_free l1 i l2
      (fun j hj => htaken j (List.mem_cons_of_mem _ hj)) hfree

/-- C3: unique_path returns a non-existing candidate unchanged; otherwise it
returns `stem_<i><suffix>` for the first counter i from 2 whose candidate is
free on disk; and it fails with the resolution error exactly when every
counter 2..9999 (9998 attempts) is taken. -/
theorem C3_unique_path_correct (fs : FS) (p : Path) :
    (existsPath fs p = false → unique_path fs p = Except.ok p) ∧
    (existsPath fs p = true →
      (∀ i : Nat, 2 ≤ i → i < 10000 → existsPath fs (candAt p i) = false →
        (∀ j : Nat, 2 ≤ j → j < i → existsPath fs (candAt p j) = true) →
        unique_path fs p = Except.ok (candAt p i)) ∧
      ((∃ m, unique_path fs p = Except.error m) ↔
        ∀ j : Nat, 2 ≤ j → j < 10000 → existsPath fs (candAt p j) = true)) := by
  constructor
  · intro h
    unfold unique_path
    rw [if_neg (by simp [h])]
  · intro h
    constructor
    · intro i h2 h10 hfree htaken
      unfold unique_path
      rw [if_pos h]
      have e1 : 2 + 1 * (i - 2) = i := by omega
      have e2 : (10000 - i) + (i - 2) = 9998 := by omega
      have e3 : 10000 - i = (9999 - i) + 1 := by omega
      have hsplit : List.range' 2 9998 =
          List.range' 2 (i - 2) ++ i :: List.range' (i + 1) (9999 - i) := by
        calc List.range' 2 9998
            = List.range' 2 ((10000 - i) + (i - 2)) := by rw [e2]
          _ = List.range' 2 (i - 2) ++ List.range' (2 + 1 * (i - 2)) (10000 - i) :=
              (List.range'_append 2 (i - 2) (10000 - i) 1).symm
          _ = List.range' 2 (i - 2) ++ i :: List.range' (i + 1) (9999 - i) := by
              rw [e1, e3, List.range'_succ]
      rw [hsplit]
      apply uniqueSearch_first_free
      · intro j hj
        have hj' := List.mem_range'_1.mp hj
        exact htaken j hj'.1 (by omega)
      · exact hfree
    · constructor
      · rintro ⟨m, hm⟩ j h2 h10
        unfold unique_path at hm
        rw [if_pos h] at hm
        exact uniqueSearch_error_all _ m hm j
          (List.mem_range'_1.mpr ⟨h2, by omega⟩)
      · intro hall
        refine ⟨"Could not find unique name for " ++ nameOf p, ?_⟩
        unfold unique_path
        rw [if_pos h]
        exact uniqueSearch_all_taken _ (fun j hj => by
          have hj' := List.mem_range'_1.mp hj
          exact hall j hj'.1 (by omega))

/-- C3 witness: with `a.txt` and `a_2.txt` present, resolving `a.txt` yields
the counter-3 candidate `a_3.txt`. -/
theorem C3_witness :
    existsPath fsCounter ["d", "a.txt"] = true ∧
    candAt ["d", "a.txt"] 3 = ["d", "a_3.txt"] ∧
    unique_path fsCounter ["d", "a.txt"] =
      Except.ok (candAt ["d", "a.txt"] 3) := by
  refine ⟨rfl, rfl, ?_⟩
  refine ((C3_unique_path_correct fsCounter ["d", "a.txt"]).2 rfl).1 3
    (by decide) (by decide) (by decide) ?_
  intro j h1 h2
  have hj : j = 2 := by omega
  subst hj
  decide

/-- In a well-formed state, a directory with a child has its whole prefix
chain present on disk. -/
theorem WF_child_exists {fs : FS} {o : Path} (hwf : WFb fs = true)
    (hchild : hasChildEntry fs o = true) :
    ∀ q ∈ o.inits, q.isEmpty = true ∨ existsPath fs q = true := by
  obtain ⟨c, hc, hcc⟩ := List.any_eq_true.mp hchild
  simp only [Bool.and_eq_true] at hcc
  obtain ⟨hcpre, hclen⟩ := hcc
  have hclen' : c.path.length = o.length + 1 := by
    simpa using hclen
  intro q hq
  by_cases hqe : q.isEmpty = true
  · exact Or.inl hqe
  right
  obtain ⟨t1, ht1⟩ := (isPrefixB_iff o c.path).mp hcpre
  obtain ⟨t0, ht0⟩ := (List.mem_inits q o).mp hq
  have hqc : q ∈ c.path.inits := by
    apply (List.mem_inits _ _).mpr
    exact ⟨t0 ++ t1, by rw [← List.append_assoc, ht0, ← ht1]⟩
  have hall := List.all_eq_true.mp (List.all_eq_true.mp hwf c hc) q hqc
  simp only [Bool.or_eq_true] at hall
  rcases hall with (h2 | h2) | h1
  · exact absurd h2 hqe
  · exfalso
    have hqep : q = c.path := by simpa using h2
    have hql : q.length + t0.length = o.length := by
      rw [← ht0]
      simp
    rw [hqep, hclen'] at hql
    omega
  · obtain ⟨d, hd, hdd⟩ := List.any_eq_true.mp h1
    simp only [Bool.and_eq_true] at hdd
    apply (existsPath_iff fs q).mpr
    exact ⟨d, hd, by simpa using hdd.1⟩

/-- C2: every fatal precondition — missing or non-directory source root,
missing rules file, or a non-empty separate output root (in a well-formed
state) — terminates the run with an error message before any filesystem
mutation: the resulting state equals the initial one. -/
theorem C2_preconditions_abort (fs : FS) (a : Args) (rules : Rules)
    (logPath : Path)
    (h : (existsPath fs a.root && isDirAt fs a.root) = false
       ∨ existsPath fs a.rulesPath = false
       ∨ ∃ o, a.output = some o ∧ o ≠ a.root ∧ WFb fs = true ∧
           hasChildEntry fs o = true) :
    (mainRun fs a rules logPath).1 = fs ∧
      ∃ m, (mainRun fs a rules logPath).2 = Except.error m := by
  by_cases h1 : (existsPath fs a.root && isDirAt fs a.root) = false
  · have hm : mainRun fs a rules logPath =
        (fs, Except.error "Root folder not found or not a directory") := by
      unfold mainRun
      rw [h1]
      simp
    rw [hm]
    exact ⟨rfl, _, rfl⟩
  · have h1' : (existsPath fs a.root && isDirAt fs a.root) = true := by
      revert h1
      cases (existsPath fs a.root && isDirAt fs a.root) <;> simp
    by_cases h2 : existsPath fs a.rulesPath = false
    · have hm : mainRun fs a rules logPath =
          (fs, Except.error "Rules file not found") := by
        unfold mainRun
        rw [h1', h2]
        simp
      rw [hm]
      exact ⟨rfl, _, rfl⟩
    · rcases h with h | h | h
      · exact absurd h h1
      · exact absurd h h2
      obtain ⟨o, hout, hne, hwf, hchild⟩ := h
      have h2' : existsPath fs a.rulesPath = true := by
        revert h2
        cases existsPath fs a.rulesPath <;> simp
      have hmk : mkdirP fs o = fs := mkdirP_eq_self (WF_child_exists hwf hchild)
      have hec : ensure_clean_output_folder fs o false = (fs, true) := by
        simp [ensure_clean_output_folder, hmk, hchild]
      have hm : mainRun fs a rules logPath =
          (fs, Except.error "Output folder is not empty") := by
        unfold mainRun
        rw [h1', h2', hout]
        simp [hne, hec]
      rw [hm]
      exact ⟨rfl, _, rfl⟩

/-- `find?` returns the element at the first index satisfying the predicate. -/
theorem find?_first_of_matches {α : Type} (p : α → Bool) :
    ∀ (l : List α) (i : Nat) (h : i < l.length), p (l.get ⟨i, h⟩) = true →
      (∀ (j : Nat) (hj : j < i), p (l.get ⟨j, Nat.lt_trans hj h⟩) = false) →
      l.find? p = some (l.get ⟨i, h⟩)
  | [], i, h => by simp at h
  | a :: l, 0, _ => fun hp _ => List.find?_cons_of_pos _ hp
  | a :: l, i + 1, h => fun hp hprev => by
    have ha : p a = false := hprev 0 (Nat.succ_pos i)
    rw [List.find?_cons_of_neg _ (by simp [ha])]
    exact find?_first_of_matches p l i (by simpa using h) hp
      (fun j hj => hprev (j + 1) (by omega))

/-- C6: extension_bucket lowers the queried extension, walks the categories in
their defined order comparing against each category's lower-cased extensions,
returns the first matching category, and otherwise returns the configured
fallback, defaulting to "Other" when unspecified. -/
theorem C6_extension_bucket_order (ext : String) (rules : Rules) :
    ((∀ fe ∈ rules.folders, extMatches (pyLower ext) fe = false) →
      extension_bucket ext rules = rules.unknown_folder.getD "Other") ∧
    (∀ (i : Nat) (h : i < rules.folders.length),
      extMatches (pyLower ext) (rules.folders.get ⟨i, h⟩) = true →
      (∀ (j : Nat) (hj : j < i),
        extMatches (pyLower ext) (rules.folders.get ⟨j, Nat.lt_trans hj h⟩) =
          false) →
      extension_bucket ext rules = (rules.folders.get ⟨i, h⟩).1) := by
  have hdef : extension_bucket ext rules =
      match rules.folders.find? (extMatches (pyLower ext)) with
      | some fe => fe.1
      | none => fallbackName rules := rfl
  constructor
  · intro hnone
    have hf : rules.folders.find? (extMatches (pyLower ext)) = none :=
      List.find?_eq_none.mpr (fun x hx => by simp [hnone x hx])
    rw [hdef, hf]
    rfl
  · intro i h hp hprev
    rw [hdef, find?_first_of_matches (extMatches (pyLower ext)) rules.folders i h hp hprev]

/-- Rules with overlapping extension lists, for exercising first-match-wins. -/
def rulesOverlap : Rules := Rules.mk [("A", [".x"]), ("B", [".x", ".y"])] none

/-- C6 witness: `.Y` resolves to the second category (the first has no match),
`.z` falls back to the default `Other`. -/
theorem C6_witness :
    extension_bucket ".Y" rulesOverlap = "B" ∧
    extension_bucket ".z" rulesOverlap = "Other" := by
  constructor
  · refine (C6_extension_bucket_order ".Y" rulesOverlap).2 1 (by decide)
      (by decide) ?_
    intro j hj
    have hj0 : j = 0 := by omega
    subst hj0
    show extMatches (pyLower ".Y") (rulesOverlap.folders.get ⟨0, by decide⟩) = false
    decide
  · exact (C6_extension_bucket_order ".z" rulesOverlap).1 (by decide)

/-- C2 witness: a populated separate output root makes the run abort with the
initial state untouched. -/
theorem C2_witness :
    (mainRun fsBusyOut argsBusyOut rulesTxt ["logs", "l.txt"]).1 = fsBusyOut ∧
    ∃ m, (mainRun fsBusyOut argsBusyOut rulesTxt ["logs", "l.txt"]).2 =
      Except.error m :=
  C2_preconditions_abort fsBusyOut argsBusyOut rulesTxt ["logs", "l.txt"]
    (Or.inr (Or.inr ⟨["out"], rfl, by decide, by decide, rfl⟩))

/-- The slugifier's keep-class coincides with the spec's character classes. -/
theorem allowedChar_eq_spec (c : Char) : allowedChar c = specAllowed c := by
  simp [allowedChar, specAllowed, Char.isAlpha, Char.isUpper, Char.isLower,
    Char.isDigit, Char.le_def]

/-- Kept characters are never whitespace. -/
theorem allowed_not_space {c : Char} (h : allowedChar c = true) :
    pySpace c = false := by
  by_cases hs : pySpace c = true
  · exfalso
    have hs' : c = ' ' ∨ c = '\t' ∨ c = '\n' ∨ c = '\x0d' ∨ c = '\x0b' ∨
        c = '\x0c' := by
      simpa [pySpace, or_assoc] using hs
    rcases hs' with rfl | rfl | rfl | rfl | rfl | rfl <;> revert h <;> decide
  · revert hs
    cases pySpace c <;> simp

/-- `dropWhile` is the identity when no element satisfies the predicate. -/
theorem dropWhile_eq_self_of {α : Type} (p : α → Bool) (l : List α)
    (h : ∀ c ∈ l, p c = false) : l.dropWhile p = l := by
  cases l with
  | nil => rfl
  | cons a l => rw [List.dropWhile_cons, if_neg (by simp [h a (List.mem_cons_self a l)])]

/-- Stripping is the identity on whitespace-free strings. -/
theorem pyStrip_eq_self {l : List Char} (h : ∀ c ∈ l, pySpace c = false) :
    pyStrip l = l := by
  unfold pyStrip
  rw [dropWhile_eq_self_of _ _ h]
  rw [dropWhile_eq_self_of _ _ (fun c hc => h c (List.mem_reverse.mp hc))]
  rw [List.reverse_reverse]

/-- Mapping a function that fixes every member is the identity. -/
theorem map_id_of {α : Type} (f : α → α) (l : List α)
    (h : ∀ c ∈ l, f c = c) : l.map f = l := by
  induction l with
  | nil => rfl
  | cons a l ih =>
    rw [List.map_cons, h a (List.mem_cons_self a l),
      ih (fun c hc => h c (List.mem_cons_of_mem a hc))]

/-- Collapsing keeps the head of the list. -/
theorem collapseU_cons (b : Char) (r : List Char) :
    ∃ t, collapseU (b :: r) = b :: t := by
  induction r generalizing b with
  | nil => exact ⟨[], rfl⟩
  | cons c r' ih =>
    by_cases h : (b == '_' && c == '_') = true
    · have hbc : b = '_' ∧ c = '_' := by simpa using h
      obtain ⟨hb', hc'⟩ := hbc
      subst hb'
      subst hc'
      obtain ⟨t, ht⟩ := ih '_'
      exact ⟨t, by simpa [collapseU] using ht⟩
    · have h' : (b == '_' && c == '_') = false := by
        revert h
        cases (b == '_' && c == '_') <;> simp
      exact ⟨collapseU (c :: r'), by simp [collapseU, h']⟩

/-- Collapsing only keeps characters of the original list. -/
theorem mem_collapseU : ∀ (l : List Char), ∀ c ∈ collapseU l, c ∈ l
  | [] => by simp [collapseU]
  | [a] => by simp [collapseU]
  | a :: b :: r => by
    intro c hc
    by_cases h : (a == '_' && b == '_') = true
    · rw [show collapseU (a :: b :: r) = collapseU (b :: r) from by
        simp [collapseU, h]] at hc
      exact List.mem_cons_of_mem a (mem_collapseU (b :: r) c hc)
    · have h' : (a == '_' && b == '_') = false := by
        revert h
        cases (a == '_' && b == '_') <;> simp
      rw [show collapseU (a :: b :: r) = a :: collapseU (b :: r) from by
        simp [collapseU, h']] at hc
      rcases List.mem_cons.mp hc with rfl | hc'
      · exact List.mem_cons_self c (b :: r)
      · exact List.mem_cons_of_mem a (mem_collapseU (b :: r) c hc')

/-- Collapsing leaves no adjacent underscores. -/
theorem collapseU_noDD : ∀ (l : List Char), noDD (collapseU l) = true
  | [] => rfl
  | [_] => rfl
  | a :: b :: r => by
    by_cases h : (a == '_' && b == '_') = true
    · rw [show collapseU (a :: b :: r) = collapseU (b :: r) from by
        simp [collapseU, h]]
      exact collapseU_noDD (b :: r)
    · have h' : (a == '_' && b == '_') = false := by
        revert h
        cases (a == '_' && b == '_') <;> simp
      rw [show collapseU (a :: b :: r) = a :: collapseU (b :: r) from by
        simp [collapseU, h']]
      obtain ⟨t, ht⟩ := collapseU_cons b r
      have hrec := collapseU_noDD (b :: r)
      rw [ht] at hrec ⊢
      simp [noDD, h', hrec]

/-- A list with no adjacent underscores is a collapse fixpoint. -/
theorem collapseU_of_noDD : ∀ (l : List Char), noDD l = true → collapseU l = l
  | [], _ => rfl
  | [_], _ => rfl
  | a :: b :: r, h => by
    simp only [noDD, Bool.and_eq_true] at h
    obtain ⟨h1, h2⟩ := h
    have h1' : (a == '_' && b == '_') = false := by
      revert h1
      cases (a == '_' && b == '_') <;> simp
    rw [show collapseU (a :: b :: r) = a :: collapseU (b :: r) from by
      simp [collapseU, h1']]
    rw [collapseU_of_noDD (b :: r) (by simpa [noDD] using h2)]

/-- Every character of a slugified name is in the keep-class. -/
theorem slugifyChars_allowed (s : List Char) :
    ∀ c ∈ slugifyChars s, allowedChar c = true := by
  intro c hc
  simp only [slugifyChars] at hc
  split at hc
  · simp at hc
    rcases hc with rfl | rfl | rfl | rfl <;> decide
  · have hmem := mem_collapseU _ c hc
    exact (List.mem_filter.mp hmem).2

/-- A slugified name has no adjacent underscores. -/
theorem slugifyChars_noDD (s : List Char) : noDD (slugifyChars s) = true := by
  simp only [slugifyChars]
  split
  · decide
  · exact collapseU_noDD _

/-- A slugified name is never empty. -/
theorem slugifyChars_ne_nil (s : List Char) : slugifyChars s ≠ [] := by
  simp only [slugifyChars]
  split
  · decide
  · rename_i h
    exact fun hnil => h (by rw [hnil]; rfl)

/-- The slugifier's character pipeline is idempotent. -/
theorem slugifyChars_idem (s : List Char) :
    slugifyChars (slugifyChars s) = slugifyChars s := by
  have hall : ∀ c ∈ slugifyChars s, allowedChar c = true := slugifyChars_allowed s
  have hnodd : noDD (slugifyChars s) = true := slugifyChars_noDD s
  have hne : slugifyChars s ≠ [] := slugifyChars_ne_nil s
  conv_lhs => rw [slugifyChars]
  rw [pyStrip_eq_self (fun c hc => allowed_not_space (hall c hc))]
  rw [map_id_of _ _ (fun c hc => by
    have hc' := hall c hc
    have hcs : (c == ' ') = false := by
      rcases hc2 : (c == ' ') with _ | _
      · rfl
      · exfalso
        have : c = ' ' := by simpa using hc2
        subst this
        exact absurd hc' (by decide)
    rw [if_neg (by simp [hcs])])]
  rw [List.filter_eq_self.mpr hall]
  rw [collapseU_of_noDD _ hnodd]
  have hne2 : ¬(slugifyChars s).isEmpty = true := by
    intro hisE
    exact hne (List.isEmpty_iff.mp hisE)
  rw [if_neg hne2]

/-- C8: the slugifier is idempotent — slugifying a slugified name returns it
unchanged. -/
theorem C8_slugify_idempotent (s : String) : slugify (slugify s) = slugify s := by
  show String.mk (slugifyChars (String.mk (slugifyChars s.data)).data) =
    String.mk (slugifyChars s.data)
  exact congrArg String.mk (slugifyChars_idem s.data)

/-- The spec's collapse and the code's collapse agree. -/
theorem collapseSpec_eq_collapseU : ∀ (l : List Char), collapseSpec l = collapseU l
  | [] => rfl
  | a :: l => by
    have hstep : collapseSpec (a :: l) =
        (if a == '_' &&
            (match collapseSpec l with | '_' :: _ => true | _ => false) then
          collapseSpec l
        else a :: collapseSpec l) := rfl
    rw [hstep, collapseSpec_eq_collapseU l]
    cases l with
    | nil => simp [collapseU]
    | cons b r =>
      obtain ⟨t, ht⟩ := collapseU_cons b r
      by_cases ha : a = '_' <;> by_cases hb : b = '_'
      · subst ha
        subst hb
        rw [ht]
        rw [if_pos (by simp)]
        rw [show collapseU ('_' :: '_' :: r) = collapseU ('_' :: r) from by
          simp [collapseU]]
        exact ht.symm
      · subst ha
        rw [ht]
        rw [if_neg (by simp [hb])]
        rw [show collapseU ('_' :: b :: r) = '_' :: collapseU (b :: r) from by
          simp [collapseU, hb]]
        rw [ht]
      · subst hb
        rw [ht]
        rw [if_neg (by simp [ha])]
        rw [show collapseU (a :: '_' :: r) = a :: collapseU ('_' :: r) from by
          simp [collapseU, ha]]
        rw [ht]
      · rw [ht]
        rw [if_neg (by simp [ha])]
        rw [show collapseU (a :: b :: r) = a :: collapseU (b :: r) from by
          simp [collapseU, ha]]
        rw [ht]

/-- C7: the slugifier implements exactly the spec's pipeline — trim, interior
spaces to underscores, drop disallowed characters, collapse underscore runs,
fall back to "file" — and slugifies the scenario name as expected. -/
theorem C7_slugify_matches_spec :
    (∀ s : String, slugify s = slugify_spec s) ∧
    slugify "My Report (final).pdf" = "My_Report_final.pdf" := by
  constructor
  · intro s
    show String.mk (slugifyChars s.data) = slugify_spec s
    simp only [slugifyChars, slugify_spec]
    rw [collapseSpec_eq_collapseU]
    rw [List.filter_congr (fun c _ => (allowedChar_eq_spec c))]
    congr 1
    simp [List.isEmpty_iff]
  · rfl

/-- The traced search computes the same result as the untraced one. -/
theorem uniqueSearchTr_fst {fs : FS} {pname : String} {cand : Nat → Path} :
    ∀ (l : List Nat),
      (uniqueSearchTr fs pname cand l).1 = uniqueSearch fs pname cand l
  | [] => rfl
  | i :: rest => by
    by_cases he : existsPath fs (cand i) = true
    · simp [uniqueSearchTr, uniqueSearch, he, uniqueSearchTr_fst rest]
    · simp [uniqueSearchTr, uniqueSearch, he]

/-- The traced search performs only reads. -/
theorem uniqueSearchTr_reads {fs : FS} {pname : String} {cand : Nat → Path} :
    ∀ (l : List Nat), ∀ eff ∈ (uniqueSearchTr fs pname cand l).2,
      eff.isRead = true
  | [] => by simp [uniqueSearchTr]
  | i :: rest => by
    intro eff heff
    by_cases he : existsPath fs (cand i) = true
    · simp only [uniqueSearchTr, if_pos he] at heff
      rcases List.mem_cons.mp heff with rfl | h2
      · rfl
      · exact uniqueSearchTr_reads rest eff h2
    · simp only [uniqueSearchTr, if_neg he] at heff
      simp at heff
      subst heff
      rfl

/-- The traced resolver computes the same result as `unique_path`. -/
theorem unique_pathTr_fst (fs : FS) (p : Path) :
    (unique_pathTr fs p).1 = unique_path fs p := by
  by_cases he : existsPath fs p = true <;>
    simp [unique_pathTr, unique_path, he, uniqueSearchTr_fst]

/-- The traced resolver performs only reads. -/
theorem unique_pathTr_reads (fs : FS) (p : Path) :
    ∀ eff ∈ (unique_pathTr fs p).2, eff.isRead = true := by
  intro eff heff
  by_cases he : existsPath fs p = true
  · simp only [unique_pathTr, if_pos he] at heff
    rcases List.mem_cons.mp heff with rfl | h2
    · rfl
    · exact uniqueSearchTr_reads _ eff h2
  · simp only [unique_pathTr, if_neg he] at heff
    simp at heff
    subst heff
    rfl

/-- The traced per-entry planner computes the same result as `planEntry`. -/
theorem planEntryTr_fst (fs : FS) (in_root out_root : Path) (rules : Rules)
    (rename : Bool) (e : Entry) :
    (planEntryTr fs in_root out_root rules rename e).1 =
      planEntry fs in_root out_root rules rename e := by
  by_cases hs : skipEntry in_root (organizedTop rules) e = true
  · simp [planEntryTr, planEntry, hs]
  · simp only [planEntryTr, planEntry, if_neg hs]
    rw [← unique_pathTr_fst]

/-- The traced per-entry planner performs only reads. -/
theorem planEntryTr_reads (fs : FS) (in_root out_root : Path) (rules : Rules)
    (rename : Bool) (e : Entry) :
    ∀ eff ∈ (planEntryTr fs in_root out_root rules rename e).2,
      eff.isRead = true := by
  intro eff heff
  by_cases hs : skipEntry in_root (organizedTop rules) e = true
  · simp [planEntryTr, hs] at heff
  · simp only [planEntryTr, if_neg hs] at heff
    exact unique_pathTr_reads fs _ eff heff

/-- The traced plan builder computes the same result as `planList`. -/
theorem planListTr_fst (fs : FS) (in_root out_root : Path) (rules : Rules)
    (rename : Bool) :
    ∀ (es : List Entry),
      (planListTr fs in_root out_root rules rename es).1 =
        planList fs in_root out_root rules rename es
  | [] => rfl
  | e :: es => by
    simp only [planListTr, planList]
    rw [planEntryTr_fst]
    cases planEntry fs in_root out_root rules rename e with
    | error m => rfl
    | ok o =>
      cases o with
      | none => exact planListTr_fst fs in_root out_root rules rename es
      | some p =>
        dsimp only
        rw [planListTr_fst fs in_root out_root rules rename es]

/-- The traced plan builder performs only reads. -/
theorem planListTr_reads (fs : FS) (in_root out_root : Path) (rules : Rules)
    (rename : Bool) :
    ∀ (es : List Entry),
      ∀ eff ∈ (planListTr fs in_root out_root rules rename es).2,
        eff.isRead = true
  | [] => by simp [planListTr]
  | e :: es => by
    intro eff heff
    simp only [planListTr] at heff
    cases hpe : (planEntryTr fs in_root out_root rules rename e).1 with
    | error m =>
      rw [hpe] at heff
      exact planEntryTr_reads fs in_root out_root rules rename e eff heff
    | ok o =>
      rw [hpe] at heff
      cases o with
      | none =>
        dsimp only at heff
        rcases List.mem_append.mp heff with h1 | h2
        · exact planEntryTr_reads fs in_root out_root rules rename e eff h1
        · exact planListTr_reads fs in_root out_root rules rename es eff h2
      | some p =>
        dsimp only at heff
        rcases List.mem_append.mp heff with h1 | h2
        · exact planEntryTr_reads fs in_root out_root rules rename e eff h1
        · exact planListTr_reads fs in_root out_root rules rename es eff h2

/-- Replaying a trace of pure reads changes nothing. -/
theorem applyTrace_reads (fs : FS) :
    ∀ (tr : List FSEff), (∀ eff ∈ tr, eff.isRead = true) →
      applyTrace fs tr = fs
  | [], _ => rfl
  | eff :: tr, h => by
    cases eff with
    | read p =>
      show applyTrace (effApply fs (FSEff.read p)) tr = fs
      exact applyTrace_reads fs tr (fun e2 he2 => h e2 (List.mem_cons_of_mem _ he2))
    | mkdirEff p => exact absurd (h _ (List.mem_cons_self _ _)) (by simp [FSEff.isRead])
    | moveEff s d => exact absurd (h _ (List.mem_cons_self _ _)) (by simp [FSEff.isRead])
    | copyEff s d => exact absurd (h _ (List.mem_cons_self _ _)) (by simp [FSEff.isRead])

/-- C9: plan building performs zero filesystem mutation — every filesystem
access it makes is a read, replaying its accesses leaves the state unchanged,
and the traced computation returns exactly the plan of `plan_actions`. -/
theorem C9_planning_is_pure (fs : FS) (in_root out_root : Path) (rules : Rules)
    (rename : Bool) :
    (plan_actionsTr fs in_root out_root rules rename).2.all FSEff.isRead = true ∧
    applyTrace fs (plan_actionsTr fs in_root out_root rules rename).2 = fs ∧
    (plan_actionsTr fs in_root out_root rules rename).1 =
      plan_actions fs in_root out_root rules rename := by
  have hreads := planListTr_reads fs in_root out_root rules rename
    (rglob fs in_root)
  exact ⟨List.all_eq_true.mpr hreads, applyTrace_reads fs _ hreads,
    planListTr_fst fs in_root out_root rules rename (rglob fs in_root)⟩

end Organize
